import Mathlib

/-!
Verification of the chunked nearest-neighbor matching engine
(`gridmeter/gridmeter/utils/calculate_distances.py`) against its design
specification.

The engine is embedded shallowly:

* Feature rows are abstract (`α` for treatment rows, `β` for comparison-pool
  rows) and the distance metric is an arbitrary function `d : α → β → ℚ`;
  `scipy.spatial.distance.cdist(ls_t, chunk, metric)` is the matrix of
  pairwise applications of `d`, which we represent row-by-row.
* The parallel numpy arrays `cp_id_idx` (comparison-pool row indices) and
  `dist` (distances) are represented as matrices of `(index, distance)`
  pairs; the source always fancy-indexes both arrays by the same `idx`, so
  the pairing is preserved throughout.
* `np.argpartition(a, k)[:, :k]` isolates, for each row, `k` smallest
  entries in an order numpy leaves unspecified.  We model it as the
  deterministic refinement the spec (§4.3) instructs implementers to pick:
  ties are broken by lowest original comparison-pool row index, i.e. the
  selection keeps the first `k` elements of the row sorted by the
  lexicographic key (distance, index).
* Machine floats are replaced by exact rationals.
* `np.hstack` on an empty Python list raises `ValueError`; the embedding
  returns `Option`, with `none` for that failure.
-/

namespace Gridmeter

open List

variable {α β : Type*}

/-- The comparison key on `(comparison-pool index, distance)` pairs:
ascending distance, ties broken by ascending pool index.  This is the
lexicographic order on `(distance, index)`. -/
def keyLe (x y : ℕ × ℚ) : Prop :=
  x.2 < y.2 ∨ (x.2 = y.2 ∧ x.1 ≤ y.1)

/-- Strict version of `keyLe`. -/
def keyLt (x y : ℕ × ℚ) : Prop :=
  x.2 < y.2 ∨ (x.2 = y.2 ∧ x.1 < y.1)

instance : DecidableRel keyLe := fun x y => by
  unfold keyLe; exact inferInstance

instance : DecidableRel keyLt := fun x y => by
  unfold keyLt; exact inferInstance

instance : IsTotal (ℕ × ℚ) keyLe where
  total x y := by
    rcases lt_trichotomy x.2 y.2 with h | h | h
    · exact Or.inl (Or.inl h)
    · rcases Nat.le_total x.1 y.1 with h' | h'
      · exact Or.inl (Or.inr ⟨h, h'⟩)
      · exact Or.inr (Or.inr ⟨h.symm, h'⟩)
    · exact Or.inr (Or.inl h)

instance : IsTrans (ℕ × ℚ) keyLe where
  trans x y z hxy hyz := by
    rcases hxy with h1 | ⟨h1, h1'⟩ <;> rcases hyz with h2 | ⟨h2, h2'⟩
    · exact Or.inl (h1.trans h2)
    · exact Or.inl (h2 ▸ h1)
    · exact Or.inl (h1 ▸ h2)
    · exact Or.inr ⟨h1.trans h2, h1'.trans h2'⟩

instance : IsAntisymm (ℕ × ℚ) keyLe where
  antisymm x y hxy hyx := by
    rcases hxy with h1 | ⟨h1, h1'⟩ <;> rcases hyx with h2 | ⟨h2, h2'⟩
    · exact absurd h2 (lt_asymm h1)
    · exact absurd h1 (h2 ▸ lt_irrefl _)
    · exact absurd h2 (h1 ▸ lt_irrefl _)
    · exact Prod.ext (Nat.le_antisymm h1' h2') h1

/-- Count of elements of `l` strictly key-below `x`. -/
def belowCount (x : ℕ × ℚ) (l : List (ℕ × ℚ)) : ℕ :=
  l.countP (fun y => decide (keyLt y x))

/-- The sort used throughout: ascending by `keyLe` (distance, then index). -/
def sortPairs (l : List (ℕ × ℚ)) : List (ℕ × ℚ) :=
  List.insertionSort keyLe l

/-- Worker for `chunks`: peels off `C`-sized contiguous slices of `l`,
tagging each slice with the absolute row indices it covers, starting at
offset `off`.  Each step consumes at least the head; `fuel` (instantiated
with the list's length, an upper bound on the number of chunks) makes the
recursion structural. -/
def chunksGo (C : ℕ) : ℕ → List β → ℕ → List (List ℕ × List β)
  | _, [], _ => []
  | 0, _ :: _, _ => []
  | fuel + 1, x :: xs, off =>
    (List.range' off ((x :: xs).take C).length,
      (x :: xs).take C) :: chunksGo C fuel (xs.drop (C - 1)) (off + C)

/-- Modelled from the spec: the partitioner `chunks` from
`gridmeter.utils.misc` is imported by `calculate_distances` but its source
is not in the tree.  Per §4.1 it yields a finite sequence of contiguous
chunks covering all rows exactly once in original order, each of size `C`
except possibly a shorter last one, and each carrying the original row
indices alongside the submatrix slice; an empty input yields zero chunks.
`C = 0` is outside the defined domain (§7 ConfigurationError) and is
modelled as yielding no chunks. -/
def chunks (ls : List β) (C : ℕ) : List (List ℕ × List β) :=
  if C = 0 then [] else chunksGo C ls.length ls 0

/-- One row of `scipy.spatial.distance.cdist(ls_t, chunk)` for treatment
row `t`, paired entrywise with the chunk's absolute row indices (the
source keeps these as the parallel arrays `chunked_dist` and
`chunked_cp_id_idx = np.tile(idx_chunk, ...)`). -/
def pairRow (d : α → β → ℚ) (t : α) (ch : List ℕ × List β) :
    List (ℕ × ℚ) :=
  ch.1.zip (ch.2.map (d t))

/-- `np.argpartition(row, k)[:k]` with the parallel index row fancy-indexed
by the same `idx`: isolates `k` key-smallest entries of the row.  numpy
leaves the order (and tie choice) unspecified; the model fixes the
deterministic refinement recommended by §4.3: lowest original row index
wins ties, output ascending by key. -/
def selectSmallest (k : ℕ) (l : List (ℕ × ℚ)) : List (ℕ × ℚ) :=
  (sortPairs l).take k

/-- `n_smallest` after the first clamp in the source:
`if n_smallest is None or n_smallest > ls_cp.shape[0]: n_smallest = ls_cp.shape[0]`. -/
def nSmallestVal (n_matches_per_treatment : Option ℕ) (n_cp : ℕ) : ℕ :=
  match n_matches_per_treatment with
  | none => n_cp
  | some k => if n_cp < k then n_cp else k

/-- `n_chunk_smallest` after the second clamp in the source:
`if n_chunk_smallest is None or n_chunk_smallest > n_meters_per_chunk:
n_chunk_smallest = n_meters_per_chunk`. -/
def nChunkSmallestVal (n_matches_per_treatment : Option ℕ)
    (n_meters_per_chunk : ℕ) : ℕ :=
  match n_matches_per_treatment with
  | none => n_meters_per_chunk
  | some k => if n_meters_per_chunk < k then n_meters_per_chunk else k

/-- One chunk's contribution for one treatment row: the body of the chunk
loop.  `chunked_dist.shape[1]` is the chunk's row count; when
`n_chunk_smallest < chunked_dist.shape[1]` the source argpartitions and
slices the `n_chunk_smallest` smallest, otherwise it appends the whole
chunk row unchanged. -/
def retainChunk (d : α → β → ℚ) (m : ℕ) (t : α) (ch : List ℕ × List β) :
    List (ℕ × ℚ) :=
  if m < ch.2.length then selectSmallest m (pairRow d t ch)
  else pairRow d t ch

/-- The accumulated (`np.hstack`-ed) row for treatment row `t`: per-chunk
retained candidates concatenated in chunk order. -/
def accRow (d : α → β → ℚ) (ls_cp : List β)
    (n_matches_per_treatment : Option ℕ) (C : ℕ) (t : α) :
    List (ℕ × ℚ) :=
  ((chunks ls_cp C).map
    (retainChunk d (nChunkSmallestVal n_matches_per_treatment C) t)).flatten

/-- Number of columns retained from a chunk of `c` rows. -/
def retainWidth (m c : ℕ) : ℕ :=
  if m < c then m else c

/-- `dist.shape[1]` after `np.hstack`: total retained columns across
chunks. -/
def hstackWidth (ls_cp : List β) (n_matches_per_treatment : Option ℕ)
    (C : ℕ) : ℕ :=
  ((chunks ls_cp C).map
    (fun ch =>
      retainWidth (nChunkSmallestVal n_matches_per_treatment C)
        ch.2.length)).sum

/-- The final reduction for one treatment row: the
`if n_smallest < dist.shape[1]` branch argpartitions the accumulated row
and keeps the `n_smallest` smallest; the `else` branch
(`idx = np.tile(np.arange(dist.shape[1]), ...)`) keeps every accumulated
column in order. -/
def finalRow (d : α → β → ℚ) (ls_cp : List β)
    (n_matches_per_treatment : Option ℕ) (C : ℕ) (t : α) :
    List (ℕ × ℚ) :=
  if nSmallestVal n_matches_per_treatment ls_cp.length <
      hstackWidth ls_cp n_matches_per_treatment C then
    selectSmallest (nSmallestVal n_matches_per_treatment ls_cp.length)
      (accRow d ls_cp n_matches_per_treatment C t)
  else accRow d ls_cp n_matches_per_treatment C t

/-- Shallow embedding of
`gridmeter.gridmeter.utils.calculate_distances.calculate_distances`.

The source returns the parallel matrices `(cp_id_idx, dist)`; the model
returns the matrix of `(index, distance)` pairs (one row per treatment
row).  `np.hstack` on the empty accumulator list (which happens exactly
when the chunk loop never ran, i.e. the pool is empty or `C = 0`) raises
`ValueError`; the model returns `none` there. -/
def calculate_distances (d : α → β → ℚ) (ls_t : List α) (ls_cp : List β)
    (n_matches_per_treatment : Option ℕ) (n_meters_per_chunk : ℕ) :
    Option (List (List (ℕ × ℚ))) :=
  if (chunks ls_cp n_meters_per_chunk).isEmpty then none
  else
    some (ls_t.map
      (finalRow d ls_cp n_matches_per_treatment n_meters_per_chunk))

/-- Spec-side reference (§8 Exactness): the full pairwise distance row of a
treatment row against the entire comparison pool, in original row order —
what a brute-force full computation materializes. -/
def bruteForceRow (d : α → β → ℚ) (t : α) (ls_cp : List β) :
    List (ℕ × ℚ) :=
  (List.range ls_cp.length).zip (ls_cp.map (d t))

/-- Spec-side reference (§8 Exactness): brute-force full pairwise
computation followed by a full sort, keeping the first `k` — the `k`
nearest comparison rows with ties broken by lowest row index. -/
def bruteForceTopK (d : α → β → ℚ) (t : α) (ls_cp : List β) (k : ℕ) :
    List (ℕ × ℚ) :=
  (sortPairs (bruteForceRow d t ls_cp)).take k

/-- Concrete metric used in witnesses and counterexamples: the distance of
any treatment row to a pool row is the pool row's value (realizable, e.g.,
as the Euclidean distance from the origin to a 1-feature row). -/
def dQ : ℚ → ℚ → ℚ := fun _ y => y

theorem keyLt_irrefl (x : ℕ × ℚ) : ¬ keyLt x x := by
  rintro (h | ⟨_, h⟩)
  · exact lt_irrefl _ h
  · exact lt_irrefl _ h

theorem keyLt_trans {x y z : ℕ × ℚ} (hxy : keyLt x y) (hyz : keyLt y z) :
    keyLt x z := by
  rcases hxy with h1 | ⟨h1, h1'⟩ <;> rcases hyz with h2 | ⟨h2, h2'⟩
  · exact Or.inl (h1.trans h2)
  · exact Or.inl (h2 ▸ h1)
  · exact Or.inl (h1 ▸ h2)
  · exact Or.inr ⟨h1.trans h2, h1'.trans h2'⟩

theorem keyLt_asymm {x y : ℕ × ℚ} (h : keyLt x y) : ¬ keyLt y x :=
  fun h' => keyLt_irrefl x (keyLt_trans h h')

theorem keyLt_of_keyLe_of_ne {x y : ℕ × ℚ} (h : keyLe x y) (hne : x ≠ y) :
    keyLt x y := by
  rcases h with h | ⟨h, h'⟩
  · exact Or.inl h
  · refine Or.inr ⟨h, lt_of_le_of_ne h' ?_⟩
    intro hfst
    exact hne (Prod.ext hfst h)

theorem keyLe_of_keyLt {x y : ℕ × ℚ} (h : keyLt x y) : keyLe x y := by
  rcases h with h | ⟨h, h'⟩
  · exact Or.inl h
  · exact Or.inr ⟨h, le_of_lt h'⟩

theorem not_keyLt_of_keyLe {x y : ℕ × ℚ} (h : keyLe x y) : ¬ keyLt y x := by
  rintro (h' | ⟨h', h''⟩) <;> rcases h with h | ⟨h, hle⟩
  · exact lt_asymm h h'
  · exact absurd h' (h ▸ lt_irrefl _)
  · exact absurd h (h' ▸ lt_irrefl _)
  · exact absurd hle (not_le_of_lt h'')

theorem belowCount_nil (x : ℕ × ℚ) : belowCount x [] = 0 := rfl

theorem belowCount_cons (x a : ℕ × ℚ) (l : List (ℕ × ℚ)) :
    belowCount x (a :: l) =
      (if keyLt a x then 1 else 0) + belowCount x l := by
  by_cases h : keyLt a x <;>
    simp [belowCount, List.countP_cons, h, Nat.add_comm]

theorem belowCount_append (x : ℕ × ℚ) (l₁ l₂ : List (ℕ × ℚ)) :
    belowCount x (l₁ ++ l₂) = belowCount x l₁ + belowCount x l₂ := by
  simp [belowCount, List.countP_append]

theorem belowCount_perm {l₁ l₂ : List (ℕ × ℚ)} (h : l₁ ~ l₂) (x : ℕ × ℚ) :
    belowCount x l₁ = belowCount x l₂ :=
  h.countP_eq _

theorem belowCount_le_of_subperm {l₁ l₂ : List (ℕ × ℚ)} (h : l₁ <+~ l₂)
    (x : ℕ × ℚ) : belowCount x l₁ ≤ belowCount x l₂ :=
  h.countP_le _

/-- In a strictly key-sorted list, membership in the first `k` elements is
exactly: membership plus fewer than `k` elements strictly below. -/
theorem mem_take_of_strict_sorted :
    ∀ (s : List (ℕ × ℚ)), s.Pairwise keyLt → ∀ (k : ℕ) (x : ℕ × ℚ),
      (x ∈ s.take k ↔ x ∈ s ∧ belowCount x s < k)
  | [], _, k, x => by simp [belowCount_nil]
  | a :: t, hs, 0, x => by simp
  | a :: t, hs, k + 1, x => by
    have hpair := (List.pairwise_cons.mp hs).1
    have htail := (List.pairwise_cons.mp hs).2
    have IH := mem_take_of_strict_sorted t htail k x
    by_cases hxa : x = a
    · subst hxa
      have hcnt : belowCount x (x :: t) = belowCount x t := by
        rw [belowCount_cons, if_neg (keyLt_irrefl x), Nat.zero_add]
      have hzero : belowCount x t = 0 := by
        rw [belowCount, List.countP_eq_zero]
        intro y hy
        simpa using keyLt_asymm (hpair y hy)
      simp [hcnt, hzero]
    · by_cases hxt : x ∈ t
      · have hax : keyLt a x := hpair x hxt
        have hcnt : belowCount x (a :: t) = 1 + belowCount x t := by
          rw [belowCount_cons, if_pos hax]
        simp only [List.take_succ_cons, List.mem_cons, hxa, false_or, hcnt]
        rw [IH]
        constructor
        · rintro ⟨h1, h2⟩
          exact ⟨h1, by omega⟩
        · rintro ⟨h1, h2⟩
          exact ⟨h1, by omega⟩
      · have hnot : x ∉ a :: t := by
          simp [hxa, hxt]
        have hnt : x ∉ t.take k := fun h => hxt (List.take_sublist _ _ |>.mem h)
        simp [hxa, hnt, hnot]

theorem sortPairs_perm (l : List (ℕ × ℚ)) : sortPairs l ~ l :=
  List.perm_insertionSort keyLe l

theorem sortPairs_sorted (l : List (ℕ × ℚ)) :
    List.Sorted keyLe (sortPairs l) :=
  List.sorted_insertionSort keyLe l

theorem sortPairs_strict_of_nodup {l : List (ℕ × ℚ)} (hl : l.Nodup) :
    (sortPairs l).Pairwise keyLt := by
  have hnd : (sortPairs l).Nodup := ((sortPairs_perm l).nodup_iff).mpr hl
  have hs := sortPairs_sorted l
  exact (List.Pairwise.and hs hnd).imp
    (fun h => keyLt_of_keyLe_of_ne h.1 h.2)

/-- Membership in the `k` key-smallest elements of a duplicate-free list. -/
theorem mem_take_sortPairs_iff {l : List (ℕ × ℚ)} (hl : l.Nodup) (k : ℕ)
    (x : ℕ × ℚ) :
    x ∈ (sortPairs l).take k ↔ x ∈ l ∧ belowCount x l < k := by
  rw [mem_take_of_strict_sorted (sortPairs l) (sortPairs_strict_of_nodup hl) k x,
    belowCount_perm (sortPairs_perm l), (sortPairs_perm l).mem_iff]

theorem Subperm.append_both {l₁ l₂ l₃ l₄ : List (ℕ × ℚ)}
    (h₁ : l₁ <+~ l₂) (h₂ : l₃ <+~ l₄) : l₁ ++ l₃ <+~ l₂ ++ l₄ := by
  obtain ⟨u₁, p₁, s₁⟩ := h₁
  obtain ⟨u₂, p₂, s₂⟩ := h₂
  exact ⟨u₁ ++ u₂, p₁.append p₂, s₁.append s₂⟩

theorem chunksGo_succ (C fuel : ℕ) (x : β) (xs : List β) (off : ℕ) :
    chunksGo C (fuel + 1) (x :: xs) off =
      (List.range' off ((x :: xs).take C).length, (x :: xs).take C) ::
        chunksGo C fuel (xs.drop (C - 1)) (off + C) :=
  rfl

theorem chunksGo_nil (C fuel off : ℕ) :
    chunksGo C fuel ([] : List β) off = [] := by
  cases fuel <;> rfl

theorem drop_cons_of_pos (C : ℕ) (hC : 0 < C) (x : β) (xs : List β) :
    (x :: xs).drop C = xs.drop (C - 1) := by
  obtain ⟨C', rfl⟩ := Nat.exists_eq_add_of_lt hC
  simp [Nat.add_comm]

/-- Shape facts about every chunk the partitioner yields: index and row
slices have equal length, each chunk holds at most `C` rows, and no chunk
is empty. -/
theorem chunksGo_shape (C : ℕ) (hC : 0 < C) :
    ∀ (fuel : ℕ) (l : List β) (off : ℕ), ∀ ch ∈ chunksGo C fuel l off,
      ch.1.length = ch.2.length ∧ ch.2.length ≤ C ∧ ch.2 ≠ []
  | fuel, [], off => by simp [chunksGo_nil]
  | 0, x :: xs, off => by simp [chunksGo]
  | fuel + 1, x :: xs, off => by
    rw [chunksGo_succ]
    intro ch hch
    rcases List.mem_cons.mp hch with rfl | hch
    · refine ⟨by simp, by simp, ?_⟩
      obtain ⟨C', rfl⟩ := Nat.exists_eq_add_of_lt hC
      simp
    · exact chunksGo_shape C hC fuel (xs.drop (C - 1)) (off + C) ch hch

theorem chunks_shape {C : ℕ} {ls : List β} (ch : List ℕ × List β)
    (hch : ch ∈ chunks ls C) :
    ch.1.length = ch.2.length ∧ ch.2.length ≤ C ∧ ch.2 ≠ [] := by
  unfold chunks at hch
  by_cases hC : C = 0
  · rw [if_pos hC] at hch
    simp at hch
  · rw [if_neg hC] at hch
    exact chunksGo_shape C (Nat.pos_of_ne_zero hC) ls.length ls 0 ch hch

theorem chunks_ne_nil {C : ℕ} {ls : List β} (hC : 0 < C) (hls : ls ≠ []) :
    chunks ls C ≠ [] := by
  obtain ⟨x, xs, rfl⟩ := List.exists_cons_of_ne_nil hls
  unfold chunks
  rw [if_neg (Nat.pos_iff_ne_zero.mp hC)]
  rw [List.length_cons, chunksGo_succ]
  simp

theorem chunks_nil (C : ℕ) : chunks ([] : List β) C = [] := by
  unfold chunks
  by_cases hC : C = 0 <;> simp [hC, chunksGo_nil]

/-- Splitting an index-tagged list at position `C`. -/
theorem zip_range'_take_drop {γ : Type*} (off C : ℕ) (ys : List γ) :
    (List.range' off ys.length).zip ys =
      (List.range' off (ys.take C).length).zip (ys.take C) ++
        (List.range' (off + (ys.take C).length) ((ys.drop C).length)).zip
          (ys.drop C) := by
  conv_lhs => rw [← List.take_append_drop C ys]
  rw [List.length_append, Nat.add_comm ((ys.take C).length),
    ← List.range'_append_1, List.zip_append (by simp)]

/-- One chunking step preserves the index-tagged pairwise row. -/
theorem pairRow_take_drop {α : Type*} (d : α → β → ℚ) (t : α) (C off : ℕ)
    (l : List β) :
    pairRow d t (List.range' off (l.take C).length, l.take C) ++
      (List.range' (off + C) ((l.drop C).length)).zip
        ((l.drop C).map (d t)) =
      (List.range' off l.length).zip (l.map (d t)) := by
  rcases Nat.le_total C l.length with hle | hle
  · have htk : (l.take C).length = C := by
      simp only [List.length_take]
      omega
    have key := zip_range'_take_drop off C (l.map (d t))
    simp only [List.length_map, ← List.map_take, ← List.map_drop] at key
    rw [key]
    simp only [pairRow, htk]
  · have htk : l.take C = l := List.take_of_length_le hle
    have hdr : l.drop C = [] := List.drop_eq_nil_of_le hle
    simp [pairRow, htk, hdr]

/-- Flattening the pair rows of all chunks recovers the full pairwise row
in original order. -/
theorem flatten_pairRow_chunksGo {α : Type*} (d : α → β → ℚ) (t : α)
    (C : ℕ) (hC : 0 < C) :
    ∀ (fuel : ℕ) (l : List β) (off : ℕ), l.length ≤ fuel →
      ((chunksGo C fuel l off).map (pairRow d t)).flatten =
        (List.range' off l.length).zip (l.map (d t))
  | fuel, [], off, _ => by simp [chunksGo_nil]
  | 0, x :: xs, off, h => by simp at h
  | fuel + 1, x :: xs, off, h => by
    have hrec : (xs.drop (C - 1)).length ≤ fuel := by
      rw [List.length_drop]
      simp only [List.length_cons] at h
      omega
    rw [chunksGo_succ, List.map_cons, List.flatten_cons,
      flatten_pairRow_chunksGo d t C hC fuel (xs.drop (C - 1)) (off + C) hrec,
      ← drop_cons_of_pos C hC x xs]
    exact pairRow_take_drop d t C off (x :: xs)

theorem flatten_pairRow_chunks {α : Type*} (d : α → β → ℚ) (t : α)
    {C : ℕ} (hC : 0 < C) (ls : List β) :
    ((chunks ls C).map (pairRow d t)).flatten = bruteForceRow d t ls := by
  unfold chunks bruteForceRow
  rw [if_neg (Nat.pos_iff_ne_zero.mp hC),
    flatten_pairRow_chunksGo d t C hC ls.length ls 0 (le_refl _),
    List.range_eq_range']

theorem nodup_of_subperm {l₁ l₂ : List (ℕ × ℚ)} (h : l₁ <+~ l₂)
    (hnd : l₂.Nodup) : l₁.Nodup := by
  obtain ⟨u, p, s⟩ := h
  exact (p.nodup_iff).mp (hnd.sublist s)

theorem selectSmallest_subperm (k : ℕ) (l : List (ℕ × ℚ)) :
    selectSmallest k l <+~ l :=
  ((List.take_sublist k (sortPairs l)).subperm).trans (sortPairs_perm l).subperm

theorem selectSmallest_length (k : ℕ) (l : List (ℕ × ℚ)) :
    (selectSmallest k l).length = min k l.length := by
  simp [selectSmallest, sortPairs, (List.perm_insertionSort keyLe l).length_eq]

theorem belowCount_lt_length_of_mem {x : ℕ × ℚ} {l : List (ℕ × ℚ)}
    (hx : x ∈ l) : belowCount x l < l.length := by
  rcases Nat.lt_or_ge (belowCount x l) l.length with h | h
  · exact h
  · have heq : belowCount x l = l.length :=
      Nat.le_antisymm (List.countP_le_length _) h
    have := (List.countP_eq_length.mp heq) x hx
    simp at this
    exact absurd this (keyLt_irrefl x)

/-- If `x` is dropped by a partial selection that keeps `m` out of at
least `m` elements, then all `m` kept elements lie strictly below `x`. -/
theorem dropped_belowCount {l : List (ℕ × ℚ)} (hnd : l.Nodup) {m : ℕ}
    {x : ℕ × ℚ} (hx : x ∈ l) (hm : m ≤ l.length)
    (hxk : x ∉ (sortPairs l).take m) :
    m ≤ belowCount x ((sortPairs l).take m) := by
  have hstrict := sortPairs_strict_of_nodup hnd
  have hsplit : sortPairs l = (sortPairs l).take m ++ (sortPairs l).drop m :=
    (List.take_append_drop m (sortPairs l)).symm
  have hxs : x ∈ sortPairs l := (sortPairs_perm l).mem_iff.mpr hx
  have hxd : x ∈ (sortPairs l).drop m := by
    rcases List.mem_append.mp (hsplit ▸ hxs) with h | h
    · exact absurd h hxk
    · exact h
  have hcross : ∀ y ∈ (sortPairs l).take m, keyLt y x := by
    rw [hsplit] at hstrict
    intro y hy
    exact (List.pairwise_append.mp hstrict).2.2 y hy x hxd
  have hall : belowCount x ((sortPairs l).take m) =
      ((sortPairs l).take m).length := by
    rw [belowCount, List.countP_eq_length]
    intro y hy
    simpa using hcross y hy
  have hlen : ((sortPairs l).take m).length = m := by
    rw [List.length_take, (sortPairs_perm l).length_eq]
    omega
  omega

/-- Per-selection count dichotomy: either no element strictly below `x` is
discarded, or the selection keeps `m` elements all strictly below `x`. -/
theorem selection_count_dichotomy {l : List (ℕ × ℚ)} (hnd : l.Nodup)
    {m : ℕ} (hm : m ≤ l.length) (x : ℕ × ℚ) :
    belowCount x ((sortPairs l).take m) = belowCount x l ∨
      m ≤ belowCount x ((sortPairs l).take m) := by
  have hsplit : sortPairs l = (sortPairs l).take m ++ (sortPairs l).drop m :=
    (List.take_append_drop m (sortPairs l)).symm
  have hcnt : belowCount x l =
      belowCount x ((sortPairs l).take m) +
        belowCount x ((sortPairs l).drop m) := by
    rw [← belowCount_perm (sortPairs_perm l) x]
    conv_lhs => rw [hsplit]
    exact belowCount_append x _ _
  by_cases hd : belowCount x ((sortPairs l).drop m) = 0
  · left
    omega
  · right
    have hy : ∃ y ∈ (sortPairs l).drop m, keyLt y x := by
      by_contra hnone
      push_neg at hnone
      apply hd
      rw [belowCount, List.countP_eq_zero]
      intro y hy
      simpa using hnone y hy
    obtain ⟨y, hyd, hyx⟩ := hy
    have hstrict := sortPairs_strict_of_nodup hnd
    have hcross : ∀ z ∈ (sortPairs l).take m, keyLt z x := by
      rw [hsplit] at hstrict
      intro z hz
      exact keyLt_trans ((List.pairwise_append.mp hstrict).2.2 z hz y hyd) hyx
    have hall : belowCount x ((sortPairs l).take m) =
        ((sortPairs l).take m).length := by
      rw [belowCount, List.countP_eq_length]
      intro z hz
      simpa using hcross z hz
    have hlen : ((sortPairs l).take m).length = m := by
      rw [List.length_take, (sortPairs_perm l).length_eq]
      omega
    omega

theorem pairRow_length (d : α → β → ℚ) (t : α) (ch : List ℕ × List β)
    (h1 : ch.1.length = ch.2.length) :
    (pairRow d t ch).length = ch.2.length := by
  simp [pairRow, h1]

theorem retainChunk_subperm (d : α → β → ℚ) (m : ℕ) (t : α)
    (ch : List ℕ × List β) :
    retainChunk d m t ch <+~ pairRow d t ch := by
  unfold retainChunk
  by_cases hb : m < ch.2.length
  · rw [if_pos hb]
    exact selectSmallest_subperm m (pairRow d t ch)
  · rw [if_neg hb]

theorem retainChunk_length (d : α → β → ℚ) (m : ℕ) (t : α)
    (ch : List ℕ × List β) (h1 : ch.1.length = ch.2.length) :
    (retainChunk d m t ch).length = retainWidth m ch.2.length := by
  unfold retainChunk retainWidth
  by_cases hb : m < ch.2.length
  · rw [if_pos hb, if_pos hb, selectSmallest_length,
      pairRow_length d t ch h1]
    omega
  · rw [if_neg hb, if_neg hb, pairRow_length d t ch h1]

theorem flatten_map_subperm {γ : Type*} (f g : γ → List (ℕ × ℚ)) :
    ∀ (L : List γ), (∀ c ∈ L, f c <+~ g c) →
      (L.map f).flatten <+~ (L.map g).flatten
  | [], _ => by simp
  | c :: L, h => by
    simp only [List.map_cons, List.flatten_cons]
    exact Subperm.append_both (h c (by simp))
      (flatten_map_subperm f g L (fun c' hc' => h c' (by simp [hc'])))

theorem bruteForceRow_nodup (d : α → β → ℚ) (t : α) (ls_cp : List β) :
    (bruteForceRow d t ls_cp).Nodup := by
  have hmap : (bruteForceRow d t ls_cp).map Prod.fst =
      List.range ls_cp.length := by
    unfold bruteForceRow
    exact List.map_fst_zip _ _ (by simp)
  have : ((bruteForceRow d t ls_cp).map Prod.fst).Nodup := by
    rw [hmap]
    exact List.nodup_range _
  exact this.of_map

theorem accRow_subperm (d : α → β → ℚ) (t : α) (ls_cp : List β)
    (K : Option ℕ) {C : ℕ} (hC : 0 < C) :
    accRow d ls_cp K C t <+~ bruteForceRow d t ls_cp := by
  unfold accRow
  rw [← flatten_pairRow_chunks d t hC ls_cp]
  exact flatten_map_subperm _ _ (chunks ls_cp C)
    (fun ch _ => retainChunk_subperm d _ t ch)

theorem accRow_nodup (d : α → β → ℚ) (t : α) (ls_cp : List β)
    (K : Option ℕ) {C : ℕ} (hC : 0 < C) :
    (accRow d ls_cp K C t).Nodup :=
  nodup_of_subperm (accRow_subperm d t ls_cp K hC)
    (bruteForceRow_nodup d t ls_cp)

theorem pairRow_nodup_of_mem_chunks (d : α → β → ℚ) (t : α)
    {ls_cp : List β} {C : ℕ} (hC : 0 < C) {ch : List ℕ × List β}
    (hch : ch ∈ chunks ls_cp C) :
    (pairRow d t ch).Nodup := by
  have hsub : pairRow d t ch <+ bruteForceRow d t ls_cp := by
    rw [← flatten_pairRow_chunks d t hC ls_cp]
    exact List.sublist_flatten_of_mem (List.mem_map_of_mem _ hch)
  exact (bruteForceRow_nodup d t ls_cp).sublist hsub

theorem accRow_length (d : α → β → ℚ) (t : α) (ls_cp : List β)
    (K : Option ℕ) (C : ℕ) :
    (accRow d ls_cp K C t).length = hstackWidth ls_cp K C := by
  unfold accRow hstackWidth
  rw [List.length_flatten, List.map_map]
  congr 1
  apply List.map_congr_left
  intro ch hch
  simp only [Function.comp_apply]
  exact retainChunk_length d _ t ch (chunks_shape ch hch).1

/-- When a chunk actually discards candidates (`m <` chunk size), the
per-chunk retention target is at least the global one. -/
theorem ns_le_m_of_drop (K : Option ℕ) (C n_cp c : ℕ) (hcC : c ≤ C)
    (h : nChunkSmallestVal K C < c) :
    nSmallestVal K n_cp ≤ nChunkSmallestVal K C := by
  cases K with
  | none =>
    simp only [nChunkSmallestVal] at h
    omega
  | some k =>
    simp only [nChunkSmallestVal, nSmallestVal] at h ⊢
    by_cases hCk : C < k
    · rw [if_pos hCk] at h
      omega
    · rw [if_neg hCk] at h ⊢
      by_cases hnk : n_cp < k
      · rw [if_pos hnk]
        omega
      · rw [if_neg hnk]

theorem retainChunk_count (d : α → β → ℚ) (t : α) (m ns : ℕ)
    (ch : List ℕ × List β) (h1 : ch.1.length = ch.2.length)
    (hnd : (pairRow d t ch).Nodup) (hns : m < ch.2.length → ns ≤ m)
    (x : ℕ × ℚ) :
    belowCount x (retainChunk d m t ch) = belowCount x (pairRow d t ch) ∨
      ns ≤ belowCount x (retainChunk d m t ch) := by
  unfold retainChunk
  by_cases hb : m < ch.2.length
  · rw [if_pos hb]
    have hrl : (pairRow d t ch).length = ch.2.length := pairRow_length d t ch h1
    have hm' : m ≤ (pairRow d t ch).length := by omega
    rcases selection_count_dichotomy (l := pairRow d t ch) hnd hm' x
      with h | h
    · exact Or.inl h
    · exact Or.inr ((hns hb).trans h)
  · rw [if_neg hb]
    exact Or.inl rfl

/-- Count preservation across the whole accumulation: either no element
strictly below `x` was discarded in any chunk, or at least `ns` elements
strictly below `x` survive. -/
theorem flatten_count_dichotomy (d : α → β → ℚ) (t : α) (m ns : ℕ)
    (x : ℕ × ℚ) :
    ∀ (L : List (List ℕ × List β)),
      (∀ ch ∈ L, ch.1.length = ch.2.length ∧ (pairRow d t ch).Nodup ∧
        (m < ch.2.length → ns ≤ m)) →
      belowCount x ((L.map (retainChunk d m t)).flatten) =
          belowCount x ((L.map (pairRow d t)).flatten) ∨
        ns ≤ belowCount x ((L.map (retainChunk d m t)).flatten)
  | [], _ => Or.inl rfl
  | ch :: L, h => by
    simp only [List.map_cons, List.flatten_cons, belowCount_append]
    obtain ⟨h1, hnd, hns⟩ := h ch (by simp)
    have hrest := flatten_count_dichotomy d t m ns x L
      (fun ch' hch' => h ch' (by simp [hch']))
    rcases retainChunk_count d t m ns ch h1 hnd hns x with hc | hc
    · rcases hrest with hr | hr
      · exact Or.inl (by omega)
      · exact Or.inr (by omega)
    · exact Or.inr (by omega)

/-- An element of the full pairwise row with fewer than `ns` elements
strictly below it survives the per-chunk reductions. -/
theorem mem_flatten_retain_of_mem (d : α → β → ℚ) (t : α) (m ns : ℕ)
    (x : ℕ × ℚ) (L : List (List ℕ × List β))
    (h : ∀ ch ∈ L, ch.1.length = ch.2.length ∧ (pairRow d t ch).Nodup ∧
      (m < ch.2.length → ns ≤ m))
    (hx : x ∈ (L.map (pairRow d t)).flatten)
    (hlt : belowCount x ((L.map (pairRow d t)).flatten) < ns) :
    x ∈ (L.map (retainChunk d m t)).flatten := by
  rw [List.mem_flatten] at hx
  obtain ⟨row, hrow, hxrow⟩ := hx
  obtain ⟨ch, hch, rfl⟩ := List.mem_map.mp hrow
  obtain ⟨h1, hnd, hns⟩ := h ch hch
  by_cases hxk : x ∈ retainChunk d m t ch
  · exact List.mem_flatten.mpr ⟨retainChunk d m t ch,
      List.mem_map_of_mem _ hch, hxk⟩
  · exfalso
    have hb : m < ch.2.length := by
      by_contra hb
      exact hxk (by rwa [retainChunk, if_neg hb])
    have hrl : (pairRow d t ch).length = ch.2.length := pairRow_length d t ch h1
    have hdrop : m ≤ belowCount x (selectSmallest m (pairRow d t ch)) := by
      apply dropped_belowCount hnd hxrow (by omega)
      rw [retainChunk, if_pos hb] at hxk
      exact hxk
    have hkept_row : belowCount x (selectSmallest m (pairRow d t ch)) ≤
        belowCount x (pairRow d t ch) :=
      belowCount_le_of_subperm (selectSmallest_subperm _ _) x
    have hrow_full : belowCount x (pairRow d t ch) ≤
        belowCount x ((L.map (pairRow d t)).flatten) := by
      simp only [belowCount, List.countP_flatten, List.map_map]
      exact List.single_le_sum (fun n _ => Nat.zero_le n) _
        (List.mem_map_of_mem _ hch)
    have := hns hb
    omega

theorem bruteForceRow_length (d : α → β → ℚ) (t : α) (ls_cp : List β) :
    (bruteForceRow d t ls_cp).length = ls_cp.length := by
  simp [bruteForceRow]

theorem calculate_distances_eq_some (d : α → β → ℚ) (ls_t : List α)
    {ls_cp : List β} (K : Option ℕ) {C : ℕ} (hC : 0 < C)
    (hcp : ls_cp ≠ []) :
    calculate_distances d ls_t ls_cp K C =
      some (ls_t.map (finalRow d ls_cp K C)) := by
  unfold calculate_distances
  rw [if_neg (by simp [chunks_ne_nil hC hcp])]

theorem calculate_distances_nil_pool (d : α → β → ℚ) (ls_t : List α)
    (K : Option ℕ) (C : ℕ) :
    calculate_distances d ls_t ([] : List β) K C = none := by
  unfold calculate_distances
  rw [if_pos (by simp [chunks_nil])]

/-- The bundle of facts about every chunk used by the counting argument. -/
theorem chunks_bundle (d : α → β → ℚ) (t : α) {ls_cp : List β} {C : ℕ}
    (hC : 0 < C) (K : Option ℕ) :
    ∀ ch ∈ chunks ls_cp C, ch.1.length = ch.2.length ∧
      (pairRow d t ch).Nodup ∧
      (nChunkSmallestVal K C < ch.2.length →
        nSmallestVal K ls_cp.length ≤ nChunkSmallestVal K C) := by
  intro ch hch
  obtain ⟨h1, hle, _⟩ := chunks_shape ch hch
  exact ⟨h1, pairRow_nodup_of_mem_chunks d t hC hch,
    fun hb => ns_le_m_of_drop K C ls_cp.length ch.2.length hle hb⟩

/-- Heart of the exactness argument: an element is in the final reduced
row iff it is one of the `n_smallest` key-smallest entries of the full
pairwise row. -/
theorem finalRow_mem_iff (d : α → β → ℚ) (t : α) {ls_cp : List β}
    (K : Option ℕ) {C : ℕ} (hC : 0 < C) (x : ℕ × ℚ) :
    x ∈ finalRow d ls_cp K C t ↔
      x ∈ bruteForceTopK d t ls_cp (nSmallestVal K ls_cp.length) := by
  have hfull_nodup := bruteForceRow_nodup d t ls_cp
  have hacc_nodup := accRow_nodup d t ls_cp K hC
  have hacc_sub := accRow_subperm d t ls_cp K (C := C) hC
  have hbundle := @chunks_bundle _ _ d t ls_cp C hC K
  have hacc_eq : accRow d ls_cp K C t =
      ((chunks ls_cp C).map (retainChunk d (nChunkSmallestVal K C) t)).flatten :=
    rfl
  have hfull_eq : bruteForceRow d t ls_cp =
      ((chunks ls_cp C).map (pairRow d t)).flatten :=
    (flatten_pairRow_chunks d t hC ls_cp).symm
  have hdich : belowCount x (accRow d ls_cp K C t) =
      belowCount x (bruteForceRow d t ls_cp) ∨
        nSmallestVal K ls_cp.length ≤ belowCount x (accRow d ls_cp K C t) := by
    rw [hacc_eq, hfull_eq]
    exact flatten_count_dichotomy d t _ _ x (chunks ls_cp C) hbundle
  have hmem_of : x ∈ bruteForceRow d t ls_cp →
      belowCount x (bruteForceRow d t ls_cp) < nSmallestVal K ls_cp.length →
      x ∈ accRow d ls_cp K C t := by
    intro h1 h2
    rw [hacc_eq]
    rw [hfull_eq] at h1 h2
    exact mem_flatten_retain_of_mem d t _ _ x (chunks ls_cp C) hbundle h1 h2
  rw [bruteForceTopK, mem_take_sortPairs_iff hfull_nodup]
  unfold finalRow
  by_cases hns : nSmallestVal K ls_cp.length < hstackWidth ls_cp K C
  · rw [if_pos hns]
    unfold selectSmallest
    rw [mem_take_sortPairs_iff hacc_nodup]
    constructor
    · rintro ⟨hxa, hca⟩
      refine ⟨hacc_sub.subset hxa, ?_⟩
      rcases hdich with h | h
      · omega
      · omega
    · rintro ⟨hxf, hcf⟩
      have hle := belowCount_le_of_subperm hacc_sub x
      exact ⟨hmem_of hxf hcf, by omega⟩
  · rw [if_neg hns]
    constructor
    · intro hxa
      have h1 : belowCount x (accRow d ls_cp K C t) <
          (accRow d ls_cp K C t).length :=
        belowCount_lt_length_of_mem hxa
      have h2 : (accRow d ls_cp K C t).length = hstackWidth ls_cp K C :=
        accRow_length d t ls_cp K C
      refine ⟨hacc_sub.subset hxa, ?_⟩
      rcases hdich with h | h
      · omega
      · omega
    · rintro ⟨hxf, hcf⟩
      exact hmem_of hxf hcf

theorem bruteForceTopK_nodup (d : α → β → ℚ) (t : α) (ls_cp : List β)
    (k : ℕ) : (bruteForceTopK d t ls_cp k).Nodup := by
  have h : (sortPairs (bruteForceRow d t ls_cp)).Nodup :=
    ((sortPairs_perm _).nodup_iff).mpr (bruteForceRow_nodup d t ls_cp)
  exact List.Nodup.sublist (List.take_sublist _ _) h

theorem finalRow_nodup (d : α → β → ℚ) (t : α) {ls_cp : List β}
    (K : Option ℕ) {C : ℕ} (hC : 0 < C) :
    (finalRow d ls_cp K C t).Nodup := by
  unfold finalRow
  by_cases hns : nSmallestVal K ls_cp.length < hstackWidth ls_cp K C
  · rw [if_pos hns]
    refine List.Nodup.sublist (List.take_sublist _ _) ?_
    exact ((sortPairs_perm _).nodup_iff).mpr (accRow_nodup d t ls_cp K hC)
  · rw [if_neg hns]
    exact accRow_nodup d t ls_cp K hC

/-- The central helper: each treatment row of the engine's result is a
permutation of the `n_smallest` key-smallest entries of the brute-force
row. -/
theorem finalRow_perm_bruteForceTopK (d : α → β → ℚ) (t : α)
    {ls_cp : List β} (K : Option ℕ) {C : ℕ} (hC : 0 < C) :
    finalRow d ls_cp K C t ~
      bruteForceTopK d t ls_cp (nSmallestVal K ls_cp.length) := by
  rw [List.perm_ext_iff_of_nodup (finalRow_nodup d t K hC)
    (bruteForceTopK_nodup d t ls_cp _)]
  exact fun x => finalRow_mem_iff d t K hC x

theorem bruteForceTopK_length (d : α → β → ℚ) (t : α) (ls_cp : List β)
    (k : ℕ) :
    (bruteForceTopK d t ls_cp k).length = min k ls_cp.length := by
  rw [bruteForceTopK, List.length_take, (sortPairs_perm _).length_eq,
    bruteForceRow_length]

theorem finalRow_length (d : α → β → ℚ) (t : α) {ls_cp : List β}
    (K : Option ℕ) {C : ℕ} (hC : 0 < C) :
    (finalRow d ls_cp K C t).length =
      min (nSmallestVal K ls_cp.length) ls_cp.length := by
  rw [(finalRow_perm_bruteForceTopK d t K hC).length_eq,
    bruteForceTopK_length]

theorem getD_map_of_lt {γ : Type*} (f : γ → List (ℕ × ℚ)) (l : List γ)
    (i : ℕ) (hi : i < l.length) :
    (l.map f).getD i [] = f (l.get ⟨i, hi⟩) := by
  rw [List.getD_eq_getElem?_getD, List.getElem?_map,
    List.getElem?_eq_getElem hi]
  rfl

/-- With the `None` ("all") sentinel nothing is discarded per chunk, so the
accumulated buffer is the entire pairwise row. -/
theorem accRow_none (d : α → β → ℚ) (t : α) (ls_cp : List β) (C : ℕ)
    (hC : 0 < C) :
    accRow d ls_cp none C t = bruteForceRow d t ls_cp := by
  unfold accRow
  rw [← flatten_pairRow_chunks d t hC ls_cp]
  congr 1
  apply List.map_congr_left
  intro ch hch
  have hle := (chunks_shape ch hch).2.1
  rw [retainChunk, if_neg ?_]
  show ¬ nChunkSmallestVal none C < ch.2.length
  simp only [nChunkSmallestVal]
  omega

theorem hstackWidth_none (ls_cp : List β) (C : ℕ) (hC : 0 < C) :
    hstackWidth ls_cp none C = ls_cp.length := by
  have h1 := accRow_length (fun (_ : Unit) (_ : β) => (0 : ℚ)) () ls_cp none C
  rw [accRow_none (fun (_ : Unit) (_ : β) => (0 : ℚ)) () ls_cp C hC,
    bruteForceRow_length] at h1
  exact h1.symm

theorem nSmallestVal_some_of_le {K n_cp : ℕ} (h : K ≤ n_cp) :
    nSmallestVal (some K) n_cp = K := by
  simp only [nSmallestVal]
  split
  · omega
  · rfl

/-- C1: For every treatment matrix, comparison-pool matrix, positive
K ≤ n_cp, and every valid chunk size C from 1 to n_cp,
`calculate_distances` returns for each treatment row exactly the set of K
smallest distances (with their comparison-pool row indices) that a
brute-force full pairwise computation followed by a full sort would
produce. -/
theorem claim1_exactness (d : α → β → ℚ) (ls_t : List α) (ls_cp : List β)
    (K C : ℕ) (hK : 0 < K) (hKn : K ≤ ls_cp.length) (hC : 0 < C)
    (hCn : C ≤ ls_cp.length) (i : ℕ) (hi : i < ls_t.length) :
    ∃ res, calculate_distances d ls_t ls_cp (some K) C = some res ∧
      res.length = ls_t.length ∧
      res.getD i [] ~ bruteForceTopK d (ls_t.get ⟨i, hi⟩) ls_cp K := by
  have hcp : ls_cp ≠ [] := by
    intro h
    rw [h] at hKn
    simp at hKn
    omega
  refine ⟨_, calculate_distances_eq_some d ls_t (some K) hC hcp, by simp, ?_⟩
  rw [getD_map_of_lt _ _ i hi]
  have h := @finalRow_perm_bruteForceTopK _ _ d (ls_t.get ⟨i, hi⟩)
    ls_cp (some K) C hC
  rwa [nSmallestVal_some_of_le hKn] at h

theorem claim1_exactness_witness :
    ∃ res, calculate_distances dQ [(0 : ℚ)] [(5 : ℚ), 1, 3] (some 2) 2 =
        some res ∧
      res.length = 1 ∧
      res.getD 0 [] ~
        bruteForceTopK dQ ([(0 : ℚ)].get ⟨0, by decide⟩) [(5 : ℚ), 1, 3] 2 :=
  claim1_exactness dQ [(0 : ℚ)] [(5 : ℚ), 1, 3] 2 2 (by decide) (by decide)
    (by decide) (by decide) 0 (by decide)

/-- C2 (counterexample): the claim "within each treatment row the
distances are sorted ascending by rank" is false: with pool distances
`[5, 1]`, `K = 2`, `C = 2`, no selection is ever applied (both
argpartition branches are skipped) and the row comes back in original
pool order `[(0, 5), (1, 1)]`, which is not non-decreasing. -/
theorem claim2_ordering_cex :
    calculate_distances dQ [(0 : ℚ)] [(5 : ℚ), 1] (some 2) 2 =
        some [[(0, 5), (1, 1)]] ∧
      ¬ List.Pairwise (fun p q : ℕ × ℚ => p.2 ≤ q.2) [(0, (5 : ℚ)), (1, 1)] := by
  constructor
  · decide
  · decide

/-- C2 (amended): within each treatment row the returned pairs are exactly
the `min(K, n_cp)` nearest ones (as a set/permutation), but the code
performs no final sort, so the order within a row is unspecified and need
not be ascending. -/
theorem claim2_ordering_amended (d : α → β → ℚ) (ls_t : List α)
    (ls_cp : List β) (K : Option ℕ) (C : ℕ) (hC : 0 < C)
    (hcp : ls_cp ≠ []) (i : ℕ) (hi : i < ls_t.length) :
    ∃ res, calculate_distances d ls_t ls_cp K C = some res ∧
      res.getD i [] ~
        bruteForceTopK d (ls_t.get ⟨i, hi⟩) ls_cp
          (nSmallestVal K ls_cp.length) := by
  refine ⟨_, calculate_distances_eq_some d ls_t K hC hcp, ?_⟩
  rw [getD_map_of_lt _ _ i hi]
  exact finalRow_perm_bruteForceTopK d _ K hC

theorem claim2_ordering_amended_witness :
    ∃ res, calculate_distances dQ [(0 : ℚ)] [(5 : ℚ), 1] (some 2) 2 =
        some res ∧
      res.getD 0 [] ~
        bruteForceTopK dQ ([(0 : ℚ)].get ⟨0, by decide⟩) [(5 : ℚ), 1]
          (nSmallestVal (some 2) [(5 : ℚ), 1].length) :=
  claim2_ordering_amended dQ [(0 : ℚ)] [(5 : ℚ), 1] (some 2) 2 (by decide)
    (by decide) 0 (by decide)

/-- C3: For every valid input with n_cp > 0 and positive integer K, the
result for every treatment row contains exactly `min(K, n_cp)`
(identifier, distance) pairs; in particular when K > n_cp the result
contains all n_cp comparison rows and no error is raised. -/
theorem claim3_size (d : α → β → ℚ) (ls_t : List α) (ls_cp : List β)
    (K C : ℕ) (hK : 0 < K) (hcp : 0 < ls_cp.length) (hC : 0 < C) (i : ℕ)
    (hi : i < ls_t.length) :
    ∃ res, calculate_distances d ls_t ls_cp (some K) C = some res ∧
      res.length = ls_t.length ∧
      (res.getD i []).length = min K ls_cp.length := by
  have hne : ls_cp ≠ [] := List.ne_nil_of_length_pos hcp
  refine ⟨_, calculate_distances_eq_some d ls_t (some K) hC hne, by simp, ?_⟩
  rw [getD_map_of_lt _ _ i hi, finalRow_length d _ (some K) hC]
  simp only [nSmallestVal]
  split
  · omega
  · omega

theorem claim3_size_witness :
    ∃ res, calculate_distances dQ [(0 : ℚ)] [(5 : ℚ), 1] (some 7) 1 =
        some res ∧
      res.length = 1 ∧
      (res.getD 0 []).length = min 7 [(5 : ℚ), 1].length :=
  claim3_size dQ [(0 : ℚ)] [(5 : ℚ), 1] 7 1 (by decide) (by decide)
    (by decide) 0 (by decide)

/-- C4: For every treatment matrix, comparison-pool matrix, and K, and for
any two valid chunk sizes C₁ and C₂, the set of (identifier, distance)
pairs returned for each treatment row is identical: the chunk size
parameter never changes the answer. -/
theorem claim4_chunk_invariance (d : α → β → ℚ) (ls_t : List α)
    (ls_cp : List β) (K : Option ℕ) (C₁ C₂ : ℕ) (hC₁ : 0 < C₁)
    (hC₂ : 0 < C₂) (hcp : ls_cp ≠ []) (i : ℕ) (hi : i < ls_t.length) :
    ∃ res₁ res₂, calculate_distances d ls_t ls_cp K C₁ = some res₁ ∧
      calculate_distances d ls_t ls_cp K C₂ = some res₂ ∧
      res₁.getD i [] ~ res₂.getD i [] := by
  refine ⟨_, _, calculate_distances_eq_some d ls_t K hC₁ hcp,
    calculate_distances_eq_some d ls_t K hC₂ hcp, ?_⟩
  rw [getD_map_of_lt _ _ i hi, getD_map_of_lt _ _ i hi]
  exact (finalRow_perm_bruteForceTopK d _ K hC₁).trans
    (finalRow_perm_bruteForceTopK d _ K hC₂).symm

theorem claim4_chunk_invariance_witness :
    ∃ res₁ res₂,
      calculate_distances dQ [(0 : ℚ)] [(5 : ℚ), 1, 3] (some 2) 1 =
          some res₁ ∧
        calculate_distances dQ [(0 : ℚ)] [(5 : ℚ), 1, 3] (some 2) 3 =
          some res₂ ∧
        res₁.getD 0 [] ~ res₂.getD 0 [] :=
  claim4_chunk_invariance dQ [(0 : ℚ)] [(5 : ℚ), 1, 3] (some 2) 1 3
    (by decide) (by decide) (by decide) 0 (by decide)

/-- C5: In the per-chunk reduction, the number of candidates retained per
treatment row is `M = min(K, C)`; for every chunk of `c` rows, each
treatment row's retained candidates are exactly the `min(M, c)` smallest
distances of that row within the chunk (order among them unspecified), and
when the chunk has `c ≤ M` rows no candidate is discarded. -/
theorem claim5_per_chunk (d : α → β → ℚ) (t : α) (ls_cp : List β)
    (K C : ℕ) (hK : 0 < K) (hC : 0 < C) :
    nChunkSmallestVal (some K) C = min K C ∧
    ∀ ch ∈ chunks ls_cp C,
      retainChunk d (nChunkSmallestVal (some K) C) t ch ~
        (sortPairs (pairRow d t ch)).take
          (min (nChunkSmallestVal (some K) C) ch.2.length) ∧
      (ch.2.length ≤ nChunkSmallestVal (some K) C →
        retainChunk d (nChunkSmallestVal (some K) C) t ch =
          pairRow d t ch) := by
  have hmin : nChunkSmallestVal (some K) C = min K C := by
    simp only [nChunkSmallestVal]
    split
    · omega
    · omega
  refine ⟨hmin, fun ch hch => ?_⟩
  have h1 := (chunks_shape ch hch).1
  have hrl : (pairRow d t ch).length = ch.2.length := pairRow_length d t ch h1
  constructor
  · unfold retainChunk
    by_cases hb : nChunkSmallestVal (some K) C < ch.2.length
    · rw [if_pos hb, selectSmallest, Nat.min_eq_left (by omega)]
    · rw [if_neg hb, Nat.min_eq_right (by omega), ← hrl,
        ← (sortPairs_perm (pairRow d t ch)).length_eq, List.take_length]
      exact (sortPairs_perm (pairRow d t ch)).symm
  · intro hle
    unfold retainChunk
    rw [if_neg (by omega)]

theorem claim5_per_chunk_witness :
    nChunkSmallestVal (some 1) 2 = min 1 2 ∧
    ∀ ch ∈ chunks [(5 : ℚ), 1, 3] 2,
      retainChunk dQ (nChunkSmallestVal (some 1) 2) 0 ch ~
        (sortPairs (pairRow dQ 0 ch)).take
          (min (nChunkSmallestVal (some 1) 2) ch.2.length) ∧
      (ch.2.length ≤ nChunkSmallestVal (some 1) 2 →
        retainChunk dQ (nChunkSmallestVal (some 1) 2) 0 ch =
          pairRow dQ 0 ch) :=
  claim5_per_chunk dQ 0 [(5 : ℚ), 1, 3] 1 2 (by decide) (by decide)

/-- C6 (counterexample): the claim "n_cp = 0 raises no error and returns
an empty candidate set for every treatment row" is false: with an empty
pool the chunk loop never runs, the accumulator list stays empty, and
`np.hstack([])` raises `ValueError` (modelled as `none`). -/
theorem claim6_empty_pool_cex :
    calculate_distances dQ [(0 : ℚ)] ([] : List ℚ) (some 1) 1 = none := by
  decide

/-- C6 (amended): for every input whose comparison pool has zero rows the
operation raises an error (the empty horizontal concatenation) instead of
returning empty candidate sets. -/
theorem claim6_empty_pool_amended (d : α → β → ℚ) (ls_t : List α)
    (K : Option ℕ) (C : ℕ) :
    calculate_distances d ls_t ([] : List β) K C = none :=
  calculate_distances_nil_pool d ls_t K C

/-- C7 (counterexample): the claim "n_t = 0 fails with an error detected
before any chunk processing" is false: with a zero-row treatment matrix
and a nonempty pool the call succeeds and returns a zero-row result. -/
theorem claim7_empty_treatment_cex :
    calculate_distances dQ ([] : List ℚ) [(1 : ℚ)] (some 1) 1 =
      some ([] : List (List (ℕ × ℚ))) := by
  decide

/-- C7 (amended): the code performs no eager validation: when the
treatment matrix has zero rows and the comparison pool is nonempty, the
operation does not fail — it returns a result with zero treatment rows. -/
theorem claim7_no_validation_amended (d : α → β → ℚ) (ls_cp : List β)
    (K : Option ℕ) (C : ℕ) (hC : 0 < C) (hcp : ls_cp ≠ []) :
    calculate_distances d ([] : List α) ls_cp K C =
      some ([] : List (List (ℕ × ℚ))) := by
  rw [calculate_distances_eq_some d [] K hC hcp]
  rfl

theorem claim7_no_validation_amended_witness :
    calculate_distances dQ ([] : List ℚ) [(1 : ℚ)] (some 2) 1 =
      some ([] : List (List (ℕ × ℚ))) :=
  claim7_no_validation_amended dQ [(1 : ℚ)] (some 2) 1 (by decide)
    (by decide)

/-- C8: For every valid input, every identifier index appearing in the
returned result is a valid row index of an input comparison-pool row; no
identifier not present in the input ever appears in a result. -/
theorem claim8_valid_identifiers (d : α → β → ℚ) (ls_t : List α)
    (ls_cp : List β) (K : Option ℕ) (C : ℕ) (hC : 0 < C)
    (hcp : ls_cp ≠ []) :
    ∃ res, calculate_distances d ls_t ls_cp K C = some res ∧
      ∀ row ∈ res, ∀ p ∈ row, p.1 < ls_cp.length := by
  refine ⟨_, calculate_distances_eq_some d ls_t K hC hcp, ?_⟩
  intro row hrow p hp
  obtain ⟨t, _, rfl⟩ := List.mem_map.mp hrow
  have h1 := (finalRow_mem_iff d t K hC p).mp hp
  rw [bruteForceTopK] at h1
  have h2 : p ∈ bruteForceRow d t ls_cp :=
    (sortPairs_perm _).mem_iff.mp ((List.take_sublist _ _).subset h1)
  obtain ⟨i', q⟩ := p
  have h3 := List.of_mem_zip h2
  exact List.mem_range.mp h3.1

theorem claim8_valid_identifiers_witness :
    ∃ res, calculate_distances dQ [(0 : ℚ)] [(5 : ℚ), 1, 3] (some 2) 2 =
        some res ∧
      ∀ row ∈ res, ∀ p ∈ row, p.1 < [(5 : ℚ), 1, 3].length :=
  claim8_valid_identifiers dQ [(0 : ℚ)] [(5 : ℚ), 1, 3] (some 2) 2
    (by decide) (by decide)

/-- C9 (counterexample): the claim "the engine never materializes the full
n_t × n_cp distance matrix" is false: with the `None` ("all") sentinel no
chunk ever discards candidates, so the accumulated (`np.hstack`-ed) buffer
holding one row per treatment row is exactly the full pairwise distance
row over all n_cp pool rows — the full matrix. -/
theorem claim9_materialization_cex :
    accRow dQ [(1 : ℚ), 2, 3] none 1 0 = bruteForceRow dQ 0 [(1 : ℚ), 2, 3] ∧
      (accRow dQ [(1 : ℚ), 2, 3] none 1 0).length = [(1 : ℚ), 2, 3].length := by
  constructor
  · decide
  · decide

/-- C9 (amended): each per-chunk distance buffer is proportional to
n_t × chunk_size (every chunk's pair row has width at most C), but the
accumulated cross-chunk buffer is not bounded by K: with the `None`
sentinel it equals the full pairwise row, i.e. an n_t × n_cp buffer is
materialized. -/
theorem claim9_width_amended (d : α → β → ℚ) (t : α) (ls_cp : List β)
    (C : ℕ) (hC : 0 < C) :
    (∀ ch ∈ chunks ls_cp C, (pairRow d t ch).length ≤ C) ∧
      accRow d ls_cp none C t = bruteForceRow d t ls_cp := by
  constructor
  · intro ch hch
    obtain ⟨h1, hle, _⟩ := chunks_shape ch hch
    rw [pairRow_length d t ch h1]
    exact hle
  · exact accRow_none d t ls_cp C hC

theorem claim9_width_amended_witness :
    (∀ ch ∈ chunks [(1 : ℚ), 2, 3] 2, (pairRow dQ 0 ch).length ≤ 2) ∧
      accRow dQ [(1 : ℚ), 2, 3] none 2 0 = bruteForceRow dQ 0 [(1 : ℚ), 2, 3] :=
  claim9_width_amended dQ 0 [(1 : ℚ), 2, 3] 2 (by decide)

/-- C10: When `n_matches_per_treatment` is `None`, `calculate_distances`
applies no truncation at either stage: for every treatment row it returns
all n_cp comparison rows (in original pool order) — `None` is the code's
"return everything" sentinel. -/
theorem claim10_none_returns_all (d : α → β → ℚ) (ls_t : List α)
    (ls_cp : List β) (C : ℕ) (hC : 0 < C) (hcp : ls_cp ≠ []) :
    calculate_distances d ls_t ls_cp none C =
      some (ls_t.map (fun t => bruteForceRow d t ls_cp)) := by
  rw [calculate_distances_eq_some d ls_t none hC hcp]
  congr 1
  apply List.map_congr_left
  intro t _
  unfold finalRow
  rw [if_neg ?_]
  · exact accRow_none d t ls_cp C hC
  · show ¬ nSmallestVal none ls_cp.length < hstackWidth ls_cp none C
    rw [hstackWidth_none ls_cp C hC]
    simp [nSmallestVal]

theorem claim10_none_returns_all_witness :
    calculate_distances dQ [(0 : ℚ)] [(5 : ℚ), 1, 3] none 2 =
      some ([(0 : ℚ)].map (fun t => bruteForceRow dQ t [(5 : ℚ), 1, 3])) :=
  claim10_none_returns_all dQ [(0 : ℚ)] [(5 : ℚ), 1, 3] 2 (by decide)
    (by decide)

end Gridmeter
